import Mathlib

/-!
Verification development for a terminal text editor written in C
(single source file `editor.c`).  The C code is shallowly embedded:
rows are lists of characters, the per-row highlight array is a list of
classification values, machine integers that stay non-negative are
modelled as `Nat`, and the few values that can be `-1` in the C (the
search session's `last_match` and `direction`) are modelled as `Int`.
Each definition mirrors one C function and is named after it.
-/

/-- `#define EDITOR_TAB_STOP 2` -/
def EDITOR_TAB_STOP : Nat := 2

/-- `#define EDITOR_QUIT_TIMES 3` -/
def EDITOR_QUIT_TIMES : Nat := 3

/-- `enum editorHighlight`: per-display-byte classification values. -/
inductive HL where
  | normal
  | comment
  | mlcomment
  | keyword1
  | keyword2
  | string
  | number
  | matched
deriving DecidableEq, Repr

/-- One iteration of the loop body of `editorRowCxToRx`: a tab advances
`rx` to the next multiple of the tab stop (`rx += (TAB-1) - rx%TAB; rx++`),
any other byte advances it by one. -/
def tabStep (rx : Nat) (c : Char) : Nat :=
  if c = '\t' then rx + ((EDITOR_TAB_STOP - 1) - rx % EDITOR_TAB_STOP) + 1 else rx + 1

/-- `editorRowCxToRx(erow *row, int cx)`: walk the first `cx` raw bytes,
accumulating the display column. -/
def editorRowCxToRx (chars : List Char) (cx : Nat) : Nat :=
  (chars.take cx).foldl tabStep 0

/-- Loop of `editorRowRxToCx`: walk the raw bytes accumulating `cur_rx`
per the same rule, returning the current raw index as soon as `cur_rx`
exceeds the requested `rx`; if the row is exhausted, return its length. -/
def rxToCxGo : List Char → Nat → Nat → Nat → Nat
  | [], _rx, _cur_rx, cx => cx
  | c :: rest, rx, cur_rx, cx =>
    let cur2 := tabStep cur_rx c
    if cur2 > rx then cx else rxToCxGo rest rx cur2 (cx + 1)

/-- `editorRowRxToCx(erow *row, int rx)`. -/
def editorRowRxToCx (chars : List Char) (rx : Nat) : Nat :=
  rxToCxGo chars rx 0 0

theorem tabStep_gt (rx : Nat) (c : Char) : rx < tabStep rx c := by
  unfold tabStep
  split
  · omega
  · omega

theorem foldl_tabStep_ge (l : List Char) (r : Nat) : r ≤ l.foldl tabStep r := by
  induction l generalizing r with
  | nil => simp
  | cons c rest ih =>
    simp only [List.foldl_cons]
    exact Nat.le_trans (Nat.le_of_lt (tabStep_gt r c)) (ih (tabStep r c))

theorem rxToCx_cxToRx_go (l : List Char) (cx cur acc : Nat) (h : cx ≤ l.length) :
    rxToCxGo l ((l.take cx).foldl tabStep cur) cur acc = acc + cx := by
  induction l generalizing cx cur acc with
  | nil =>
    have : cx = 0 := Nat.le_zero.mp h
    subst this
    simp [rxToCxGo]
  | cons c rest ih =>
    cases cx with
    | zero =>
      have hgt := tabStep_gt cur c
      simp [rxToCxGo, hgt]
    | succ k =>
      simp only [List.take_succ_cons, List.foldl_cons, rxToCxGo]
      have hle : tabStep cur c ≤ (rest.take k).foldl tabStep (tabStep cur c) :=
        foldl_tabStep_ge _ _
      have hnot : ¬ (tabStep cur c > (rest.take k).foldl tabStep (tabStep cur c)) := by omega
      simp only [hnot, if_neg, if_false]
      have hk : k ≤ rest.length := by simpa using h
      rw [ih k (tabStep cur c) (acc + 1) hk]
      omega

/-- `struct editorConfig` restricted to the fields `editorScroll` reads
and writes.  All of these are C `int`s that remain non-negative in every
reachable state, so they are modelled as `Nat`. -/
structure ScrollState where
  cx : Nat
  cy : Nat
  rx : Nat
  rowoff : Nat
  coloff : Nat
  screenrows : Nat
  screencols : Nat
deriving DecidableEq, Repr

/-- `editorScroll()`: note the C body starts with `E.rx = E.cx;` — the
stored display column is a plain copy of the raw column; the function
never calls `editorRowCxToRx`. -/
def editorScroll (E : ScrollState) : ScrollState :=
  let rx := E.cx
  let rowoff := if E.cy < E.rowoff then E.cy else E.rowoff
  let rowoff := if E.cy ≥ rowoff + E.screenrows then E.cy - E.screenrows + 1 else rowoff
  let coloff := if rx < E.coloff then rx else E.coloff
  let coloff := if rx ≥ coloff + E.screencols then rx - E.screencols + 1 else coloff
  { E with rx := rx, rowoff := rowoff, coloff := coloff }

/-- `CTRL_KEY(k)`: `k & 0x1f`. -/
def CTRL_KEY (k : Nat) : Nat := k.land 0x1f

/-- The quit keystroke `CTRL_KEY('q')` (= 17). -/
def ctrlQKey : Nat := CTRL_KEY 113

/-- The quit-confirmation fragment of `editorProcessKeypress`.  The C
keeps `static int quit_times = EDITOR_QUIT_TIMES`.  On `CTRL_KEY('q')`
with a dirty buffer and a positive counter it warns, decrements the
counter and returns early (skipping the trailing reset); otherwise the
quit key exits.  Every other key falls through the dispatch and reaches
the trailing `quit_times = EDITOR_QUIT_TIMES;`.  Result: (new counter,
whether the process exits). -/
def editorProcessKeypressQuit (dirty : Bool) (quit_times : Nat) (c : Nat) : Nat × Bool :=
  if c = ctrlQKey then
    if dirty = true ∧ 0 < quit_times then (quit_times - 1, false)
    else (quit_times, true)
  else (EDITOR_QUIT_TIMES, false)

/-- `is_separator(int c)`: whitespace (C `isspace`), NUL, or one of the
fixed punctuation set (comma, period, parens, arithmetic and comparison
operators, brackets, semicolon). -/
def is_separator (c : Char) : Bool :=
  (" \t\n\x0b\x0c\r".toList.contains c) || c = '\x00' ||
    (",.()+-/*=~%<>[];".toList.contains c)

/-- `"//"`, the C descriptor's `singleline_comment_start`. -/
def scsTok : List Char := ['/', '/']

/-- `"/*"`, the C descriptor's `multiline_comment_start`. -/
def mcsTok : List Char := ['/', '*']

/-- `"*/"`, the C descriptor's `multiline_comment_end`. -/
def mceTok : List Char := ['*', '/']

/-- `strncmp(&row->render[i], pat, strlen(pat)) == 0`.  If fewer than
`pat.length` bytes remain in the row, the C comparison reaches the NUL
terminator and fails (no pattern contains a NUL byte), which the
truncated `take` models. -/
def matchesAt (render : List Char) (i : Nat) (pat : List Char) : Bool :=
  decide ((render.drop i).take pat.length = pat)

/-- `is_separator(row->render[p])` where `p` may be `row->rsize`, in
which case the C reads the NUL terminator and `is_separator('\0')` is
true. -/
def sepAfterAt (render : List Char) (p : Nat) : Bool :=
  match render[p]? with
  | some c => is_separator c
  | none => true

/-- `C_HL_keywords`: the secondary class carries a trailing `|`. -/
def cKeywords : List String :=
  ["switch", "if", "while", "for", "break", "continue", "return", "else",
   "struct", "union", "typedef", "static", "enum", "class", "case",
   "int|", "long|", "double|", "float|", "char|", "unsigned|", "signed|",
   "void|"]

/-- `C_HL_keywords` as character lists. -/
def cKeywordsCh : List (List Char) := cKeywords.map String.toList

/-- The stripped keyword length: `klen = strlen(kw)`, minus one when the
keyword carries the trailing `|` marker. -/
def kwKlen (kw : List Char) : Nat :=
  if kw.getLast? = some '|' then kw.length - 1 else kw.length

/-- `kw2 ? HL_KEYWORD2 : HL_KEYWORD1`: class of a keyword, secondary iff
it carries the trailing `|` marker. -/
def kwClass (kw : List Char) : HL :=
  if kw.getLast? = some '|' then HL.keyword2 else HL.keyword1

/-- The keyword loop of `editorUpdateSyntax`: try each keyword in
declared order; a keyword matches when its (stripped) text occurs at
position `i` and the byte just after the match is a separator (or the
row's NUL terminator).  Returns the matched length and its class. -/
def kwMatchGo (render : List Char) (i : Nat) : List (List Char) → Option (Nat × HL)
  | [] => none
  | kw :: rest =>
    if matchesAt render i (kw.take (kwKlen kw)) && sepAfterAt render (i + kwKlen kw) then
      some (kwKlen kw, kwClass kw)
    else kwMatchGo render i rest

/-- The keyword loop over the C descriptor's keyword table. -/
def kwMatchC (render : List Char) (i : Nat) : Option (Nat × HL) :=
  kwMatchGo render i cKeywordsCh

theorem matchesAt_le {render : List Char} {i : Nat} {pat : List Char}
    (h : matchesAt render i pat = true) : pat.length ≤ render.length - i := by
  simp only [matchesAt, decide_eq_true_eq] at h
  have := congrArg List.length h
  simp only [List.length_take, List.length_drop] at this
  omega

theorem kwKlen_le_length (kw : List Char) : kwKlen kw ≤ kw.length := by
  unfold kwKlen
  split <;> omega

theorem kwMatchGo_le {render : List Char} {i : Nat} {kws : List (List Char)}
    {klen : Nat} {hv : HL} (h : kwMatchGo render i kws = some (klen, hv)) :
    klen ≤ render.length - i := by
  induction kws with
  | nil => simp [kwMatchGo] at h
  | cons kw rest ih =>
    simp only [kwMatchGo] at h
    split at h
    · rename_i hcond
      have hm := (Bool.and_eq_true _ _).mp hcond |>.1
      have hlen := matchesAt_le hm
      simp only [Option.some.injEq, Prod.mk.injEq] at h
      have htake : (kw.take (kwKlen kw)).length = kwKlen kw := by
        have := kwKlen_le_length kw
        simp only [List.length_take]
        omega
      rw [htake] at hlen
      omega
    · exact ih h

theorem kwMatchGo_pos {render : List Char} {i : Nat} {kws : List (List Char)}
    {klen : Nat} {hv : HL}
    (hall : kws.all (fun kw => decide (0 < kwKlen kw)) = true)
    (h : kwMatchGo render i kws = some (klen, hv)) : 0 < klen := by
  induction kws with
  | nil => simp [kwMatchGo] at h
  | cons kw rest ih =>
    simp only [List.all_cons, Bool.and_eq_true, decide_eq_true_eq] at hall
    simp only [kwMatchGo] at h
    split at h
    · simp only [Option.some.injEq, Prod.mk.injEq] at h
      have := hall.1
      omega
    · exact ih (by simpa [List.all_eq_true] using hall.2) h

theorem kwMatchC_pos {render : List Char} {i : Nat} {klen : Nat} {hv : HL}
    (h : kwMatchC render i = some (klen, hv)) : 0 < klen :=
  kwMatchGo_pos (by decide) h

theorem kwMatchC_le {render : List Char} {i : Nat} {klen : Nat} {hv : HL}
    (h : kwMatchC render i = some (klen, hv)) : klen ≤ render.length - i :=
  kwMatchGo_le h

/-- The per-row scan loop of `editorUpdateSyntax`, specialised to the
single registered descriptor `HLDB[0]` ("c": line comments `//`, block
comments, numbers and strings enabled).  The highlight array is built in
`acc` (most recent byte first, so `acc.headD` is the C's `prev_hl`);
positions the loop jumps over retain the initial `memset` value
`HL_NORMAL`, which is why the string-escape branch records `HL.normal`
for the skipped byte.  `fuel` is an upper bound on the number of loop
iterations; since every iteration either stops or advances `i`, the
lemmas below show any `fuel > rsize - i` computes the loop's result
(the wrapper passes `rsize + 1`).  Returns the finished highlight array
and the final `in_comment` flag. -/
def scanC : Nat → List Char → Nat → Bool → Option Char → Bool → List HL → List HL × Bool
  | 0, _render, _i, _prev_sep, _in_string, in_comment, acc => (acc.reverse, in_comment)
  | fuel + 1, render, i, prev_sep, in_string, in_comment, acc =>
    match render[i]? with
    | none => (acc.reverse, in_comment)
    | some c =>
      if in_string.isNone && !in_comment && matchesAt render i scsTok then
        ((List.replicate (render.length - i) HL.comment ++ acc).reverse, in_comment)
      else if in_string.isNone && in_comment then
        if matchesAt render i mceTok then
          scanC fuel render (i + 2) true in_string false
            (HL.mlcomment :: HL.mlcomment :: acc)
        else
          scanC fuel render (i + 1) prev_sep in_string in_comment (HL.mlcomment :: acc)
      else if in_string.isNone && matchesAt render i mcsTok then
        scanC fuel render (i + 2) prev_sep in_string true
          (HL.mlcomment :: HL.mlcomment :: acc)
      else
        match in_string with
        | some q =>
          if c = '\\' && decide (i + 1 < render.length) then
            scanC fuel render (i + 2) prev_sep (some q) in_comment
              (HL.normal :: HL.string :: acc)
          else
            scanC fuel render (i + 1) true (if c = q then none else some q) in_comment
              (HL.string :: acc)
        | none =>
          if c = '"' || c = '\'' then
            scanC fuel render (i + 1) prev_sep (some c) in_comment (HL.string :: acc)
          else if (c.isDigit && (prev_sep || acc.headD HL.normal = HL.number))
              || (c = '.' && acc.headD HL.normal = HL.number) then
            scanC fuel render (i + 1) false none in_comment (HL.number :: acc)
          else if prev_sep then
            match kwMatchC render i with
            | some (klen, hv) =>
              scanC fuel render (i + klen) false none in_comment
                (List.replicate klen hv ++ acc)
            | none =>
              scanC fuel render (i + 1) (is_separator c) none in_comment (HL.normal :: acc)
          else
            scanC fuel render (i + 1) (is_separator c) none in_comment (HL.normal :: acc)

/-- `editorUpdateSyntax` on one row, given the seeded `in_comment` flag
(the previous row's `hl_open_comment`), for an active "c" descriptor:
scan the whole display line (`prev_sep` starts true, `in_string` starts
clear) and return the highlight array plus the end-of-row comment
state. -/
def editorUpdateSyntaxRow (render : List Char) (seed : Bool) : List HL × Bool :=
  scanC (render.length + 1) render 0 true none seed []

theorem getElem?_some_lt {α : Type} {l : List α} {i : Nat} {c : α}
    (hr : l[i]? = some c) : i < l.length := by
  by_contra hc
  push_neg at hc
  simp [List.getElem?_eq_none hc] at hr

/-- Every loop iteration of the scan appends exactly as many highlight
entries as it advances `i`, so with enough fuel the finished highlight
array has exactly one entry per display byte. -/
theorem scanC_length (render : List Char) :
    ∀ fuel i prev_sep in_string in_comment acc,
      acc.length = i → i ≤ render.length → render.length - i < fuel →
      ((scanC fuel render i prev_sep in_string in_comment acc).1).length = render.length := by
  intro fuel
  induction fuel with
  | zero =>
    intro i _ _ _ _ _ hacc hle
    omega
  | succ fuel ih =>
    intro i prev_sep in_string in_comment acc hacc hle hf
    cases hr : render[i]? with
    | none =>
      have hge : render.length ≤ i := by
        by_contra hc
        push_neg at hc
        simp [List.getElem?_eq_getElem hc] at hr
      simp only [scanC, hr, List.length_reverse, hacc]
      omega
    | some c =>
      have hi : i < render.length := getElem?_some_lt hr
      simp only [scanC, hr]
      split
      · simp only [List.length_reverse, List.length_append, List.length_replicate, hacc]
        omega
      · split
        · split
          · rename_i h3
            have h2le : (2:Nat) ≤ render.length - i := by
              simpa [mceTok] using matchesAt_le h3
            apply ih
            · simp only [List.length_cons, hacc]
              try omega
            · omega
            · omega
          · apply ih
            · simp only [List.length_cons, hacc]
              try omega
            · omega
            · omega
        · split
          · rename_i h3
            have hmcs : matchesAt render i mcsTok = true :=
              (Bool.and_eq_true _ _ |>.mp h3).2
            have h2le : (2:Nat) ≤ render.length - i := by
              simpa [mcsTok] using matchesAt_le hmcs
            apply ih
            · simp only [List.length_cons, hacc]
              try omega
            · omega
            · omega
          · split
            · -- inside a string
              split
              · rename_i h4
                have h1lt : i + 1 < render.length := by
                  have := (Bool.and_eq_true _ _ |>.mp h4).2
                  simpa using this
                apply ih
                · simp only [List.length_cons, hacc]
                  try omega
                · omega
                · omega
              · apply ih
                · simp only [List.length_cons, hacc]
                  try omega
                · omega
                · omega
            · -- not inside a string
              split
              · apply ih
                · simp only [List.length_cons, hacc]
                  try omega
                · omega
                · omega
              · split
                · apply ih
                  · simp only [List.length_cons, hacc]
                    try omega
                  · omega
                  · omega
                · split
                  · split
                    · rename_i hkw
                      have hpos := kwMatchC_pos hkw
                      have hkle := kwMatchC_le hkw
                      apply ih
                      · simp only [List.length_append, List.length_replicate, hacc]
                        try omega
                      · omega
                      · omega
                    · apply ih
                      · simp only [List.length_cons, hacc]
                        try omega
                      · omega
                      · omega
                  · apply ih
                    · simp only [List.length_cons, hacc]
                      try omega
                    · omega
                    · omega

/-- While the scan is inside an open block comment and the row contains
no occurrence of the closing token, every remaining byte is classified
`HL_MLCOMMENT` and the row ends still inside the comment. -/
theorem scanC_in_comment (render : List Char)
    (hno : ∀ j, matchesAt render j mceTok = false) :
    ∀ fuel i prev_sep acc,
      i ≤ render.length → render.length - i < fuel →
      scanC fuel render i prev_sep none true acc
        = ((List.replicate (render.length - i) HL.mlcomment ++ acc).reverse, true) := by
  intro fuel
  induction fuel with
  | zero =>
    intro i _ _ hle hf
    omega
  | succ fuel ih =>
    intro i prev_sep acc hle hf
    cases hr : render[i]? with
    | none =>
      have hge : render.length ≤ i := by
        by_contra hc
        push_neg at hc
        simp [List.getElem?_eq_getElem hc] at hr
      have h0 : render.length - i = 0 := by omega
      simp [scanC, hr, h0]
    | some c =>
      have hi : i < render.length := getElem?_some_lt hr
      have hk : render.length - i = (render.length - (i + 1)) + 1 := by omega
      have hrec := ih (i + 1) prev_sep (HL.mlcomment :: acc) (by omega) (by omega)
      simp only [scanC, hr, hno i, Option.isNone_none, Bool.not_true, Bool.and_false,
        Bool.false_and, Bool.true_and, Bool.and_true, Bool.false_eq_true, if_false,
        Bool.and_self, if_true, hrec]
      rw [hk, List.replicate_succ', List.append_assoc]
      simp

theorem acc_prefix_mono (pre : List HL) {res acc : List HL}
    (h : ∃ tl, res = (pre ++ acc).reverse ++ tl) :
    ∃ tl, res = acc.reverse ++ tl := by
  obtain ⟨tl, htl⟩ := h
  exact ⟨pre.reverse ++ tl, by rw [htl]; simp⟩

/-- Whatever the scan does from position `i` on, its finished highlight
array extends the already-accumulated (reversed) prefix: positions
below `i` are final once written. -/
theorem scanC_acc_prefix :
    ∀ fuel (render : List Char) (i : Nat) (prev_sep : Bool) (in_string : Option Char)
      (in_comment : Bool) (acc : List HL),
      ∃ tl, (scanC fuel render i prev_sep in_string in_comment acc).1
        = acc.reverse ++ tl := by
  intro fuel
  induction fuel with
  | zero =>
    intro render i ps istr icom acc
    exact ⟨[], by simp [scanC]⟩
  | succ fuel ih =>
    intro render i ps istr icom acc
    cases hr : render[i]? with
    | none => exact ⟨[], by simp [scanC, hr]⟩
    | some c =>
      simp only [scanC, hr]
      split
      · exact ⟨List.replicate (render.length - i) HL.comment,
          by simp [List.reverse_append]⟩
      · split
        · split
          · exact acc_prefix_mono [HL.mlcomment, HL.mlcomment] (ih render _ _ _ _ _)
          · exact acc_prefix_mono [HL.mlcomment] (ih render _ _ _ _ _)
        · split
          · exact acc_prefix_mono [HL.mlcomment, HL.mlcomment] (ih render _ _ _ _ _)
          · split
            · split
              · exact acc_prefix_mono [HL.normal, HL.string] (ih render _ _ _ _ _)
              · exact acc_prefix_mono [HL.string] (ih render _ _ _ _ _)
            · split
              · exact acc_prefix_mono [HL.string] (ih render _ _ _ _ _)
              · split
                · exact acc_prefix_mono [HL.number] (ih render _ _ _ _ _)
                · split
                  · split
                    · exact acc_prefix_mono _ (ih render _ _ _ _ _)
                    · exact acc_prefix_mono [HL.normal] (ih render _ _ _ _ _)
                  · exact acc_prefix_mono [HL.normal] (ih render _ _ _ _ _)

/-- While the scan is inside an open block comment whose first closing
token occurs at byte `pos`, every byte up to and including that token
is classified `HL_MLCOMMENT`; the scan then continues past the token
with the comment closed, producing some tail. -/
theorem scanC_in_comment_close (render : List Char) (pos : Nat)
    (hmce : matchesAt render pos mceTok = true)
    (hbefore : ∀ m, m < pos → matchesAt render m mceTok = false) :
    ∀ fuel i prev_sep acc, i ≤ pos → render.length - i < fuel →
      ∃ tl, (scanC fuel render i prev_sep none true acc).1
        = acc.reverse ++ List.replicate (pos + 2 - i) HL.mlcomment ++ tl := by
  have hplen : pos + 2 ≤ render.length := by
    have := matchesAt_le hmce
    simp only [mceTok, List.length_cons, List.length_nil] at this
    omega
  intro fuel
  induction fuel with
  | zero =>
    intro i _ _ hip hf
    omega
  | succ fuel ih =>
    intro i prev_sep acc hip hf
    have hi : i < render.length := by omega
    have hr : render[i]? = some (render[i]) := List.getElem?_eq_getElem hi
    rcases Nat.lt_or_ge i pos with hlt | hge
    · simp only [scanC, hr, hbefore i hlt, Option.isNone_none, Bool.not_true,
        Bool.and_false, Bool.false_and, Bool.true_and, Bool.and_true,
        Bool.false_eq_true, if_false, Bool.and_self, if_true]
      obtain ⟨tl, htl⟩ := ih (i + 1) prev_sep (HL.mlcomment :: acc) (by omega) (by omega)
      refine ⟨tl, ?_⟩
      rw [htl]
      have hk : pos + 2 - i = (pos + 2 - (i + 1)) + 1 := by omega
      rw [hk, List.replicate_succ]
      simp
    · have hieq : i = pos := by omega
      subst hieq
      simp only [scanC, hr, hmce, Option.isNone_none, Bool.not_true, Bool.and_false,
        Bool.false_and, Bool.true_and, Bool.and_true, Bool.false_eq_true, if_false,
        Bool.and_self, if_true]
      obtain ⟨tl, htl⟩ := scanC_acc_prefix fuel render (i + 2) true none false
        (HL.mlcomment :: HL.mlcomment :: acc)
      refine ⟨tl, ?_⟩
      rw [htl]
      have h2 : i + 2 - i = 2 := by omega
      simp [h2, List.replicate_succ]

/-- `typedef struct erow`: `size`/`rsize` are the lengths of `chars`/
`render`. -/
structure Erow where
  idx : Nat
  chars : List Char
  render : List Char
  hl : List HL
  hl_open_comment : Bool
deriving DecidableEq, Repr

/-- Every row's `idx` field records its position in `E.row`. -/
def idxConsistent (rows : List Erow) : Prop :=
  ∀ j (h : j < rows.length), rows[j].idx = j

/-- The seed of the scan's `in_comment` flag:
`row->idx > 0 && E.row[row->idx - 1].hl_open_comment`. -/
def rowSeed (rows : List Erow) (row : Erow) : Bool :=
  decide (0 < row.idx) && (((rows[row.idx - 1]?).map Erow.hl_open_comment).getD false)

/-- `editorUpdateSyntax(&E.row[p])` at the document level, for an active
"c" descriptor.  After scanning the row it stores the new highlight
array and open-comment flag; if the flag changed and `row->idx + 1 <
E.numrows` it recurses on the next row.  The C recursion is unbounded;
`fuel` caps it, and `editorUpdateSyntaxAt_fuel` below shows any fuel of
at least `E.numrows - p` computes the same result. -/
def editorUpdateSyntaxAt : Nat → List Erow → Nat → List Erow
  | 0, rows, _p => rows
  | fuel + 1, rows, p =>
    match rows[p]? with
    | none => rows
    | some row =>
      let res := editorUpdateSyntaxRow row.render (rowSeed rows row)
      let changed := row.hl_open_comment ≠ res.2
      let rows' := rows.set p { row with hl := res.1, hl_open_comment := res.2 }
      if changed ∧ row.idx + 1 < rows'.length then
        editorUpdateSyntaxAt fuel rows' (row.idx + 1)
      else rows'

theorem getElem?_eq_of_lt {α : Type} {l : List α} {i : Nat} {c : α}
    (hr : l[i]? = some c) (h : i < l.length) : l[i] = c := by
  rw [List.getElem?_eq_getElem h] at hr
  exact Option.some.inj hr

theorem idxConsistent_set {rows : List Erow} {p : Nat} (row newrow : Erow)
    (hcons : idxConsistent rows) (hp : rows[p]? = some row)
    (hidx : newrow.idx = row.idx) : idxConsistent (rows.set p newrow) := by
  intro j hj
  have hj' : j < rows.length := by simpa using hj
  rcases eq_or_ne j p with rfl | hne
  · rw [List.getElem_set_self hj]
    rw [hidx, ← getElem?_eq_of_lt hp hj']
    exact hcons j hj'
  · rw [List.getElem_set_ne (Ne.symm hne) hj]
    exact hcons j hj'

/-- The cross-row recursion only ever touches rows at or after its
starting position. -/
theorem editorUpdateSyntaxAt_frame :
    ∀ fuel rows p j, idxConsistent rows → j < p →
      (editorUpdateSyntaxAt fuel rows p)[j]? = rows[j]? := by
  intro fuel
  induction fuel with
  | zero =>
    intro rows p j _ _
    rfl
  | succ fuel ih =>
    intro rows p j hcons hj
    cases hp : rows[p]? with
    | none => simp [editorUpdateSyntaxAt, hp]
    | some row =>
      have hplen : p < rows.length := getElem?_some_lt hp
      have hidx : row.idx = p := by
        rw [← getElem?_eq_of_lt hp hplen]
        exact hcons p hplen
      simp only [editorUpdateSyntaxAt, hp]
      split
      · rw [ih (rows.set p { row with
            hl := (editorUpdateSyntaxRow row.render (rowSeed rows row)).1,
            hl_open_comment := (editorUpdateSyntaxRow row.render (rowSeed rows row)).2 })
            (row.idx + 1) j (idxConsistent_set row _ hcons hp rfl) (by omega)]
        exact List.getElem?_set_ne (by omega)
      · exact List.getElem?_set_ne (by omega)

/-- Any fuel of at least `E.numrows - p` computes the cross-row
recursion's fixed result: each recursive call goes to `row->idx + 1`,
one position to the right, so the recursion depth never exceeds the
number of rows below the start. -/
theorem editorUpdateSyntaxAt_fuel :
    ∀ fuel rows p, idxConsistent rows → rows.length - p ≤ fuel →
      editorUpdateSyntaxAt fuel rows p
        = editorUpdateSyntaxAt (rows.length - p) rows p := by
  intro fuel
  induction fuel with
  | zero =>
    intro rows p _ hb
    have h0 : rows.length - p = 0 := by omega
    rw [h0]
  | succ fuel ih =>
    intro rows p hcons hb
    cases hp : rows[p]? with
    | none =>
      have hge : rows.length ≤ p := by
        by_contra hc
        push_neg at hc
        simp [List.getElem?_eq_getElem hc] at hp
      have h0 : rows.length - p = 0 := by omega
      rw [h0]
      simp [editorUpdateSyntaxAt, hp]
    | some row =>
      have hplen : p < rows.length := getElem?_some_lt hp
      have hidx : row.idx = p := by
        rw [← getElem?_eq_of_lt hp hplen]
        exact hcons p hplen
      obtain ⟨k, hk⟩ : ∃ k, rows.length - p = k + 1 := ⟨rows.length - p - 1, by omega⟩
      rw [hk]
      simp only [editorUpdateSyntaxAt, hp]
      split
      · have hcons' := idxConsistent_set row
          { row with
            hl := (editorUpdateSyntaxRow row.render (rowSeed rows row)).1,
            hl_open_comment := (editorUpdateSyntaxRow row.render (rowSeed rows row)).2 }
          hcons hp rfl
        rw [ih _ (row.idx + 1) hcons' (by simp only [List.length_set]; omega)]
        have hlen : (rows.set p { row with
            hl := (editorUpdateSyntaxRow row.render (rowSeed rows row)).1,
            hl_open_comment := (editorUpdateSyntaxRow row.render (rowSeed rows row)).2 }).length
            = rows.length := List.length_set rows p _
        rw [hlen, hidx]
        have : rows.length - (p + 1) = k := by omega
        rw [this]
      · rfl

/-- Once the scan reaches a row seeded inside an open block comment,
and no following row contains the closing token nor was already marked
open, the recursion marks every following row fully `HL_MLCOMMENT`. -/
theorem editorUpdateSyntaxAt_propagate :
    ∀ fuel rows p, idxConsistent rows → 0 < p →
      (rows[p - 1]?).map Erow.hl_open_comment = some true →
      (∀ j row, p ≤ j → rows[j]? = some row →
        (∀ m, matchesAt row.render m mceTok = false) ∧ row.hl_open_comment = false) →
      rows.length - p ≤ fuel →
      ∀ j row, p ≤ j → rows[j]? = some row →
        (editorUpdateSyntaxAt fuel rows p)[j]?
          = some { row with
              hl := List.replicate row.render.length HL.mlcomment,
              hl_open_comment := true } := by
  intro fuel
  induction fuel with
  | zero =>
    intro rows p _ _ _ _ hb j row hpj hj
    have := getElem?_some_lt hj
    omega
  | succ fuel ih =>
    intro rows p hcons hP hprev hrows hb j rowj hpj hj
    cases hp : rows[p]? with
    | none =>
      have := getElem?_some_lt hj
      have hge : rows.length ≤ p := by
        by_contra hc
        push_neg at hc
        simp [List.getElem?_eq_getElem hc] at hp
      omega
    | some row =>
      have hplen : p < rows.length := getElem?_some_lt hp
      have hidx : row.idx = p := by
        rw [← getElem?_eq_of_lt hp hplen]
        exact hcons p hplen
      have hseed : rowSeed rows row = true := by
        simp [rowSeed, hidx, hprev, hP]
      obtain ⟨hno, hopen⟩ := hrows p row (Nat.le_refl p) hp
      have hscan : editorUpdateSyntaxRow row.render true
          = (List.replicate row.render.length HL.mlcomment, true) := by
        rw [editorUpdateSyntaxRow,
          scanC_in_comment row.render hno (row.render.length + 1) 0 true []
            (by omega) (by omega)]
        simp
      simp only [editorUpdateSyntaxAt, hp, hseed, hscan, hopen]
      split
      · rename_i hcond
        have hlt : p + 1 < rows.length := by
          have := hcond.2
          rw [hidx] at this
          simpa using this
        have hcons' := idxConsistent_set row
          { row with
            hl := List.replicate row.render.length HL.mlcomment,
            hl_open_comment := true } hcons hp rfl
        rw [show row.idx + 1 = p + 1 from by omega]
        rcases eq_or_ne p j with rfl | hne
        · have hjr : rowj = row := by
            rw [hp] at hj
            exact (Option.some.inj hj).symm
          rw [editorUpdateSyntaxAt_frame fuel _ (p + 1) p hcons' (by omega)]
          rw [List.getElem?_set_self hplen, hjr]
        · have hj1 : p + 1 ≤ j := by omega
          have hjs : (rows.set p { row with
              hl := List.replicate row.render.length HL.mlcomment,
              hl_open_comment := true })[j]? = rows[j]? :=
            List.getElem?_set_ne (by omega)
          refine ih _ (p + 1) hcons' (by omega) ?_ ?_ (by simp only [List.length_set]; omega)
            j rowj hj1 (by rw [hjs]; exact hj)
          · have hp1 : p + 1 - 1 = p := by omega
            rw [hp1, List.getElem?_set_self hplen]
            rfl
          · intro m rowm hm hms
            rw [List.getElem?_set_ne (by omega)] at hms
            exact hrows m rowm (by omega) hms
      · rename_i hcond
        have hj2 : j = p := by
          have hjlen := getElem?_some_lt hj
          rw [Classical.not_and_iff_or_not_not] at hcond
          rcases hcond with hc1 | hc2
          · exact absurd (by simp [hopen]) hc1
          · rw [hidx] at hc2
            simp only [List.length_set] at hc2
            omega
        subst hj2
        have hjr : rowj = row := by
          rw [hp] at hj
          exact (Option.some.inj hj).symm
        rw [List.getElem?_set_self hplen, hjr]

/-- Propagation up to the next closing token: once the recursion
reaches a row seeded inside an open block comment, the rows before the
first row containing the closing token (none of which was already
marked open) are reclassified entirely `HL_MLCOMMENT`, and on that
closing row every byte up to and including the token is
`HL_MLCOMMENT`. -/
theorem editorUpdateSyntaxAt_propagate_close :
    ∀ fuel rows p M pos (rowM : Erow), idxConsistent rows → 0 < p → p ≤ M →
      (rows[p - 1]?).map Erow.hl_open_comment = some true →
      (∀ j row, p ≤ j → j < M → rows[j]? = some row →
        (∀ m, matchesAt row.render m mceTok = false) ∧ row.hl_open_comment = false) →
      rows[M]? = some rowM →
      matchesAt rowM.render pos mceTok = true →
      (∀ m, m < pos → matchesAt rowM.render m mceTok = false) →
      rows.length - p ≤ fuel →
      (∀ j row, p ≤ j → j < M → rows[j]? = some row →
        (editorUpdateSyntaxAt fuel rows p)[j]?
          = some { row with
              hl := List.replicate row.render.length HL.mlcomment,
              hl_open_comment := true }) ∧
      ((editorUpdateSyntaxAt fuel rows p)[M]?).map (fun r => r.hl.take (pos + 2))
        = some (List.replicate (pos + 2) HL.mlcomment) := by
  intro fuel
  induction fuel with
  | zero =>
    intro rows p M pos rowM _ _ hpM _ _ hM _ _ hb
    have := getElem?_some_lt hM
    omega
  | succ fuel ih =>
    intro rows p M pos rowM hcons hP hpM hprev hmid hM hmce hbefore hb
    have hMlen : M < rows.length := getElem?_some_lt hM
    have hplen : p < rows.length := by omega
    rcases Nat.lt_or_ge p M with hpltM | hpgeM
    · -- p < M: an interior row, fully inside the comment
      cases hp : rows[p]? with
      | none => exact absurd hp (by simp [List.getElem?_eq_getElem hplen])
      | some row =>
        have hidx : row.idx = p := by
          rw [← getElem?_eq_of_lt hp hplen]
          exact hcons p hplen
        have hseed : rowSeed rows row = true := by
          simp [rowSeed, hidx, hprev, hP]
        obtain ⟨hno, hopen⟩ := hmid p row (Nat.le_refl p) hpltM hp
        have hscan : editorUpdateSyntaxRow row.render true
            = (List.replicate row.render.length HL.mlcomment, true) := by
          rw [editorUpdateSyntaxRow,
            scanC_in_comment row.render hno (row.render.length + 1) 0 true []
              (by omega) (by omega)]
          simp
        simp only [editorUpdateSyntaxAt, hp, hseed, hscan, hopen]
        rw [show row.idx + 1 = p + 1 from by omega]
        rw [if_pos ⟨by decide, by simp only [List.length_set]; omega⟩]
        have hcons' := idxConsistent_set row
          { row with
            hl := List.replicate row.render.length HL.mlcomment,
            hl_open_comment := true } hcons hp rfl
        have hIH := ih (rows.set p
            { row with
              hl := List.replicate row.render.length HL.mlcomment,
              hl_open_comment := true }) (p + 1) M pos rowM hcons' (by omega) (by omega)
          (by
            rw [show p + 1 - 1 = p from by omega, List.getElem?_set_self hplen]
            rfl)
          (by
            intro m rowm hm hmM hms
            rw [List.getElem?_set_ne (by omega)] at hms
            exact hmid m rowm (by omega) hmM hms)
          (by
            rw [List.getElem?_set_ne (by omega)]
            exact hM)
          hmce hbefore
          (by simp only [List.length_set]; omega)
        constructor
        · intro j rowj hpj hjM hj
          rcases eq_or_ne p j with rfl | hne
          · have hjr : rowj = row := by
              rw [hp] at hj
              exact (Option.some.inj hj).symm
            rw [editorUpdateSyntaxAt_frame fuel _ (p + 1) p hcons' (by omega)]
            rw [List.getElem?_set_self hplen, hjr]
          · refine hIH.1 j rowj (by omega) hjM ?_
            rw [List.getElem?_set_ne (by omega)]
            exact hj
        · exact hIH.2
    · -- p = M: the closing row itself
      have hpM2 : p = M := by omega
      subst hpM2
      have hidx : rowM.idx = p := by
        rw [← getElem?_eq_of_lt hM hplen]
        exact hcons p hplen
      have hseed : rowSeed rows rowM = true := by
        simp [rowSeed, hidx, hprev, hP]
      obtain ⟨tl, htl⟩ := scanC_in_comment_close rowM.render pos hmce hbefore
        (rowM.render.length + 1) 0 true [] (Nat.zero_le pos) (by omega)
      have hpre : (editorUpdateSyntaxRow rowM.render true).1
          = List.replicate (pos + 2) HL.mlcomment ++ tl := by
        rw [editorUpdateSyntaxRow]
        simpa using htl
      constructor
      · intro j rowj hpj hjM _
        omega
      · simp only [editorUpdateSyntaxAt, hM, hseed]
        rw [show rowM.idx + 1 = p + 1 from by omega]
        have hcons' := idxConsistent_set rowM
          { rowM with
            hl := (editorUpdateSyntaxRow rowM.render true).1,
            hl_open_comment := (editorUpdateSyntaxRow rowM.render true).2 }
          hcons hM rfl
        have hfin : ((rows.set p
            { rowM with
              hl := (editorUpdateSyntaxRow rowM.render true).1,
              hl_open_comment := (editorUpdateSyntaxRow rowM.render true).2 })[p]?).map
              (fun r => r.hl.take (pos + 2))
            = some (List.replicate (pos + 2) HL.mlcomment) := by
          rw [List.getElem?_set_self hplen]
          simp only [Option.map_some']
          congr 1
          rw [hpre, List.take_left']
          simp
        split
        · rw [editorUpdateSyntaxAt_frame fuel _ (p + 1) p hcons' (by omega)]
          exact hfin
        · exact hfin

/-- `editorDelRow(int at)`.  After the bounds check, `memmove` copies
rows `at+1 .. numrows-1` down one slot (the last slot keeps its old
contents), then `for (j = at + 1; j <= E.numrows; j++) E.row[j].idx++;`
*increments* the `idx` of the rows in slots `at+1 .. numrows` — it does
not decrement, it skips slot `at`, and its final iteration addresses
slot `numrows`, one past the used array (the model applies the
in-bounds updates only); finally `E.numrows--` drops the stale last
slot.  `editorFreeRow` only releases heap buffers and has no effect on
the remaining array contents; the `dirty` bump is not modelled here.
A negative `at` cannot arise in the `Nat` model; `at >= numrows` is the
no-op branch. -/
def editorDelRow (rows : List Erow) (a : Nat) : List Erow :=
  if a ≥ rows.length then rows
  else
    let moved := rows.take a ++ rows.drop (a + 1) ++ rows.getLast?.toList
    let bumped := moved.mapIdx
      (fun j r => if a + 1 ≤ j ∧ j ≤ rows.length then { r with idx := r.idx + 1 } else r)
    bumped.take (rows.length - 1)

/-- One position of `strstr`: does the query match at the head of the
remaining haystack?  (Queries come from the prompt, which only accepts
printable bytes, so they never contain a NUL.) -/
def cstrHeadMatch : List Char → List Char → Bool
  | [], _ => true
  | _ :: _, [] => false
  | qc :: qrest, hc :: hrest => qc = hc && cstrHeadMatch qrest hrest

/-- Scan of `strstr(hay, q)` carrying the byte offset `o`; stops at the
first match or at an embedded NUL byte (which terminates the C
string). -/
def strstrGo (q : List Char) : List Char → Nat → Option Nat
  | [], o => if cstrHeadMatch q [] then some o else none
  | hc :: hrest, o =>
    if cstrHeadMatch q (hc :: hrest) then some o
    else if hc = '\x00' then none
    else strstrGo q hrest (o + 1)

/-- `strstr(row->render, query)`, returning `match - row->render` (the
byte offset of the first occurrence). -/
def strstrIdx (hay q : List Char) : Option Nat := strstrGo q hay 0

theorem cstrHeadMatch_le {q hay : List Char} (h : cstrHeadMatch q hay = true) :
    q.length ≤ hay.length := by
  induction q generalizing hay with
  | nil => simp
  | cons qc qrest ih =>
    cases hay with
    | nil => simp [cstrHeadMatch] at h
    | cons hc hrest =>
      simp only [cstrHeadMatch, Bool.and_eq_true] at h
      have := ih h.2
      simp only [List.length_cons]
      omega

theorem strstrGo_le {q : List Char} :
    ∀ hay o r, strstrGo q hay o = some r → o ≤ r ∧ r - o + q.length ≤ hay.length := by
  intro hay
  induction hay with
  | nil =>
    intro o r h
    simp only [strstrGo] at h
    split at h
    · rename_i hm
      have hq0 := cstrHeadMatch_le hm
      simp only [List.length_nil, Nat.le_zero] at hq0
      simp only [Option.some.injEq] at h
      simp [hq0]
      omega
    · simp at h
  | cons hc hrest ih =>
    intro o r h
    simp only [strstrGo] at h
    split at h
    · rename_i hm
      have := cstrHeadMatch_le hm
      simp only [Option.some.injEq] at h
      simp only [List.length_cons] at this ⊢
      omega
    · split at h
      · simp at h
      · have := ih (o + 1) r h
        simp only [List.length_cons]
        omega

theorem strstrIdx_le {hay q : List Char} {off : Nat}
    (h : strstrIdx hay q = some off) : off + q.length ≤ hay.length := by
  have := strstrGo_le hay 0 off h
  omega

/-- `memset(&row->hl[off], v, len)` on the highlight array. -/
def hlMemset (hl : List HL) (off len : Nat) (v : HL) : List HL :=
  hl.take off ++ List.replicate len v ++ hl.drop (off + len)

/-- `memcpy(dst, src, n)`: overwrite the first `n` entries of `dst`
with the first `n` entries of `src`. -/
def hlMemcpy (src dst : List HL) (n : Nat) : List HL :=
  src.take n ++ dst.drop n

/-- The editor state read and written by `editorFindCallback`, together
with the callback's static variables (`last_match`, `direction`,
`saved_hl_line`/`saved_hl`). -/
structure FindState where
  rows : List Erow
  cx : Nat
  cy : Nat
  coloff : Nat
  rowoff : Nat
  last_match : Int
  direction : Int
  saved : Option (Nat × List HL)
deriving DecidableEq, Repr

/-- The restore step at the top of `editorFindCallback`: if a saved
highlight row exists, `memcpy` its bytes back over that row's `hl`
(`rsize` bytes), free the copy and clear the pointer. -/
def restoreSavedHl (s : FindState) : FindState :=
  match s.saved with
  | none => s
  | some (line, hlsaved) =>
    match s.rows[line]? with
    | none => { s with saved := none }
    | some row =>
      { s with
        rows := s.rows.set line
          { row with hl := hlMemcpy hlsaved row.hl row.render.length },
        saved := none }

/-- The circular wrap in the search loop: `current == -1` wraps to the
last row, `current == numrows` wraps to row 0. -/
def findWrap (n : Nat) (cur1 : Int) : Int :=
  if cur1 = -1 then (n : Int) - 1
  else if cur1 = (n : Int) then 0
  else cur1

/-- The scan loop of `editorFindCallback`: at most `E.numrows`
iterations; each step advances `current` by `direction` with circular
wrap and tests whether the query occurs in that row's render text.
Returns the matched row index and the match's byte offset. -/
def editorFindLoop (rows : List Erow) (q : List Char) : Nat → Int → Int → Option (Nat × Nat)
  | 0, _current, _direction => none
  | i + 1, current, direction =>
    let cur2 := findWrap rows.length (current + direction)
    match rows[cur2.toNat]? with
    | none => editorFindLoop rows q i cur2 direction
    | some row =>
      match strstrIdx row.render q with
      | some off => some (cur2.toNat, off)
      | none => editorFindLoop rows q i cur2 direction

/-- The sequence of row indices the scan loop examines, in order. -/
def findVisits (n : Nat) : Nat → Int → Int → List Int
  | 0, _current, _direction => []
  | i + 1, current, direction =>
    let cur2 := findWrap n (current + direction)
    cur2 :: findVisits n i cur2 direction

/-- `editorFindCallback(char *query, int key)`: restore any saved
highlight row; Enter/Escape reset the session and return; Right/Down
set direction forward, Left/Up backward, any other key restarts the
session (`last_match = -1`); a fresh session forces direction forward;
then scan all rows from `last_match + direction`, and on a hit move the
cursor there, force the viewport re-anchor (`E.rowoff = E.numrows`),
save the row's highlight array and overwrite the matched span with
`HL_MATCH`.  Key codes: `'\r'` 13, escape 27, arrows 1000-1003. -/
def editorFindCallback (s0 : FindState) (q : List Char) (key : Int) : FindState :=
  let s := restoreSavedHl s0
  if key = 13 ∨ key = 27 then
    { s with last_match := -1, direction := 1 }
  else
    let lmdir : Int × Int :=
      if key = 1001 ∨ key = 1003 then (s.last_match, 1)
      else if key = 1000 ∨ key = 1002 then (s.last_match, -1)
      else (-1, 1)
    let lm := lmdir.1
    let dir := if lm = -1 then 1 else lmdir.2
    match editorFindLoop s.rows q s.rows.length lm dir with
    | none => { s with last_match := lm, direction := dir }
    | some (cur, off) =>
      match s.rows[cur]? with
      | none => { s with last_match := lm, direction := dir }
      | some row =>
        { s with
          last_match := cur,
          direction := dir,
          cy := cur,
          cx := editorRowRxToCx row.chars off,
          rowoff := s.rows.length,
          saved := some (cur, row.hl),
          rows := s.rows.set cur { row with hl := hlMemset row.hl off q.length HL.matched } }

/-- `E.syntax == NULL` path of `editorUpdateSyntax`: the highlight
array is `memset` to `HL_NORMAL` over `rsize` bytes and the function
returns without scanning or recursing. -/
def editorUpdateSyntaxNoFiletype (render : List Char) : List HL :=
  List.replicate render.length HL.normal

theorem restoreSavedHl_fields (s : FindState) :
    (restoreSavedHl s).cx = s.cx ∧ (restoreSavedHl s).cy = s.cy ∧
    (restoreSavedHl s).coloff = s.coloff ∧ (restoreSavedHl s).rowoff = s.rowoff := by
  unfold restoreSavedHl
  split
  · exact ⟨rfl, rfl, rfl, rfl⟩
  · split
    · exact ⟨rfl, rfl, rfl, rfl⟩
    · exact ⟨rfl, rfl, rfl, rfl⟩

theorem restoreSavedHl_none {s : FindState} (h : s.saved = none) :
    restoreSavedHl s = s := by
  unfold restoreSavedHl
  rw [h]

theorem editorFindLoop_none {rows : List Erow} {q : List Char}
    (hq : ∀ (j : Nat) (row : Erow), rows[j]? = some row → strstrIdx row.render q = none) :
    ∀ i c d, editorFindLoop rows q i c d = none := by
  intro i
  induction i with
  | zero =>
    intro c d
    rfl
  | succ i ih =>
    intro c d
    cases hr : rows[(findWrap rows.length (c + d)).toNat]? with
    | none =>
      simp only [editorFindLoop, hr]
      exact ih _ _
    | some row =>
      simp only [editorFindLoop, hr, hq _ _ hr]
      exact ih _ _

theorem findVisits_forward (n : Nat) :
    ∀ i c, c + i ≤ n →
      findVisits n i ((c : Int) - 1) 1 = (List.range' c i).map Int.ofNat := by
  intro i
  induction i with
  | zero =>
    intro c _
    rfl
  | succ i ih =>
    intro c hc
    have hw : findWrap n ((c : Int) - 1 + 1) = (c : Int) := by
      have h1 : (c : Int) - 1 + 1 = (c : Int) := by ring
      rw [h1]
      unfold findWrap
      rw [if_neg (by omega), if_neg (by omega)]
    simp only [findVisits, hw]
    rw [List.range'_succ, List.map_cons]
    congr 1
    have hcast : (c : Int) = ((c + 1 : Nat) : Int) - 1 := by push_cast; ring
    rw [hcast, ih (c + 1) (by omega)]

/-- C1: FAILS on the code.  `editorScroll` never calls the Renderer's
conversion: its first statement is `E.rx = E.cx;`.  On a row whose raw
text is a tab followed by `x`, with the cursor at `(cx, cy) = (1, 0)`,
after `editorScroll` the stored `E.rx` is 1 (the plain copy of `cx`),
while `editorRowCxToRx(row, 1)` is 2 (the tab expands to the next
tab stop).  The spec's claim `E.rx == editorRowCxToRx(row at cy, cx)`
is therefore violated; the struct comment in the code ("rx will be an
index into render") shows the conversion was the intent. -/
theorem editorScroll_skips_renderer :
    (editorScroll
        { cx := 1, cy := 0, rx := 0, rowoff := 0, coloff := 0, screenrows := 10,
          screencols := 10 }).rx = 1 ∧
    editorRowCxToRx ['\t', 'x'] 1 = 2 ∧
    (editorScroll
        { cx := 1, cy := 0, rx := 0, rowoff := 0, coloff := 0, screenrows := 10,
          screencols := 10 }).rx ≠ editorRowCxToRx ['\t', 'x'] 1 := by
  refine ⟨rfl, by decide, by decide⟩

/-- C2: FAILS on the code.  In the string-escape branch the C assigns
`row->hl[i] = HL_STRING` twice (once at the top of the in-string case
and once inside the backslash case) and then jumps `i += 2`; the byte
*after* the backslash is never assigned and keeps the initial `memset`
value `HL_NORMAL`.  On the render text `"\a"` (quote, backslash, `a`,
quote) the escaped byte at index 2 is classified Normal, not String —
the code's own comment says the escape should "highlight the character
and consume it" (upstream kilo writes `row->hl[i + 1]`).  The string is
indeed not closed by the skipped byte (the closing quote at index 3 is
still String and the row ends outside the string). -/
theorem string_escape_skipped_byte_stays_normal :
    editorUpdateSyntaxRow ['"', '\\', 'a', '"'] false
      = ([HL.string, HL.string, HL.normal, HL.string], false) ∧
    (editorUpdateSyntaxRow ['"', '\\', 'a', '"'] false).1[2]? ≠ some HL.string := by
  exact ⟨by decide, by decide⟩

/-- C3: FAILS on the code.  `editorDelRow`'s index-fixup loop runs
`for (j = at + 1; j <= E.numrows; j++) E.row[j].idx++;` — it
*increments* instead of decrementing, starts one slot too late, and its
last iteration addresses slot `numrows`, outside `[0, rowCount)`.
Deleting row 0 of a two-row document leaves the surviving row with
`idx = 1`, violating `row[i].idx == i` (the spec and the code's own
comment "update indexes when deleting" call for shifting indices
down). -/
theorem editorDelRow_increments_idx :
    (editorDelRow
      [{ idx := 0, chars := ['a'], render := ['a'], hl := [HL.normal],
         hl_open_comment := false },
       { idx := 1, chars := ['b'], render := ['b'], hl := [HL.normal],
         hl_open_comment := false }] 0).map Erow.idx = [1] := by
  decide

/-- C4: for every row and every raw column `cx` with
`0 ≤ cx ≤ row.raw.length`, converting to a display column and back is
the identity: `editorRowRxToCx(row, editorRowCxToRx(row, cx)) = cx`. -/
theorem rx_cx_roundtrip (chars : List Char) (cx : Nat) (h : cx ≤ chars.length) :
    editorRowRxToCx chars (editorRowCxToRx chars cx) = cx := by
  have hgo := rxToCx_cxToRx_go chars cx 0 0 h
  simpa [editorRowRxToCx, editorRowCxToRx] using hgo

theorem rx_cx_roundtrip_witness :
    2 ≤ (['a', '\t', 'b'] : List Char).length ∧
    editorRowRxToCx ['a', '\t', 'b'] (editorRowCxToRx ['a', '\t', 'b'] 2) = 2 :=
  ⟨by decide, rx_cx_roundtrip ['a', '\t', 'b'] 2 (by decide)⟩

/-- C8: with a dirty buffer, each quit keypress while the counter is
positive decrements it and warns instead of exiting (3 confirmation
presses from the initial `EDITOR_QUIT_TIMES = 3`); any other key resets
the counter to 3; the quit key exits immediately once the counter
reaches 0, or whenever the buffer is not dirty. -/
theorem quit_requires_three_confirmations :
    (∀ qt : Nat, 0 < qt →
      editorProcessKeypressQuit true qt ctrlQKey = (qt - 1, false)) ∧
    (∀ (dirty : Bool) (qt c : Nat), c ≠ ctrlQKey →
      editorProcessKeypressQuit dirty qt c = (EDITOR_QUIT_TIMES, false)) ∧
    (∀ qt : Nat, editorProcessKeypressQuit false qt ctrlQKey = (qt, true)) ∧
    editorProcessKeypressQuit true EDITOR_QUIT_TIMES ctrlQKey = (2, false) ∧
    editorProcessKeypressQuit true 2 ctrlQKey = (1, false) ∧
    editorProcessKeypressQuit true 1 ctrlQKey = (0, false) ∧
    editorProcessKeypressQuit true 0 ctrlQKey = (0, true) := by
  refine ⟨?_, ?_, ?_, by decide, by decide, by decide, by decide⟩
  · intro qt h
    simp [editorProcessKeypressQuit, h]
  · intro dirty qt c h
    simp [editorProcessKeypressQuit, h]
  · intro qt
    simp [editorProcessKeypressQuit]

theorem quit_requires_three_confirmations_witness :
    editorProcessKeypressQuit true 2 ctrlQKey = (1, false) ∧
    editorProcessKeypressQuit false 7 ctrlQKey = (7, true) ∧
    editorProcessKeypressQuit true 5 99 = (3, false) :=
  ⟨quit_requires_three_confirmations.1 2 (by decide),
   quit_requires_three_confirmations.2.2.1 7,
   quit_requires_three_confirmations.2.1 true 5 99 (by decide)⟩

/-- C9: `editorUpdateSyntax` terminates: the cross-row recursion only
fires when the row's open-comment state changed, and only onto slot
`row->idx + 1` when that is below the row count, so (with consistent
`idx` fields) every call strictly increases the row index and the
recursion depth is bounded by the number of rows: any fuel of at least
`E.numrows - p` yields the same (fixed) result. -/
theorem editorUpdateSyntax_recursion_bounded (rows : List Erow) (p f g : Nat)
    (hcons : idxConsistent rows)
    (hf : rows.length - p ≤ f) (hg : rows.length - p ≤ g) :
    editorUpdateSyntaxAt f rows p = editorUpdateSyntaxAt g rows p :=
  (editorUpdateSyntaxAt_fuel f rows p hcons hf).trans
    (editorUpdateSyntaxAt_fuel g rows p hcons hg).symm

theorem editorUpdateSyntax_recursion_bounded_witness :
    editorUpdateSyntaxAt 5
        [{ idx := 0, chars := ['/', '*'], render := ['/', '*'], hl := [],
           hl_open_comment := false },
         { idx := 1, chars := ['x'], render := ['x'], hl := [],
           hl_open_comment := false }] 0
      = editorUpdateSyntaxAt 2
        [{ idx := 0, chars := ['/', '*'], render := ['/', '*'], hl := [],
           hl_open_comment := false },
         { idx := 1, chars := ['x'], render := ['x'], hl := [],
           hl_open_comment := false }] 0 :=
  editorUpdateSyntax_recursion_bounded
    [{ idx := 0, chars := ['/', '*'], render := ['/', '*'], hl := [],
       hl_open_comment := false },
     { idx := 1, chars := ['x'], render := ['x'], hl := [],
       hl_open_comment := false }] 0 5 2
    (by
      intro j h
      simp only [List.length_cons, List.length_nil] at h
      interval_cases j <;> rfl)
    (by decide) (by decide)

/-- C5: `length(row.hl) == row.rsize` at all times: (1) the syntax scan
emits exactly one classification per display byte; (2) the no-filetype
path `memset`s exactly `rsize` bytes; (3) the search callback's match
marking stays inside the array because `strstr` guarantees
`off + strlen(query) ≤ rsize`, so the `memset` of the matched span
preserves the length; (4) restoring the saved copy (`rsize` bytes over
an `rsize`-byte array) preserves the length. -/
theorem highlight_length_invariant :
    (∀ (render : List Char) (seed : Bool),
      ((editorUpdateSyntaxRow render seed).1).length = render.length) ∧
    (∀ render : List Char,
      (editorUpdateSyntaxNoFiletype render).length = render.length) ∧
    (∀ (hay q : List Char) (off : Nat), strstrIdx hay q = some off →
      off + q.length ≤ hay.length) ∧
    (∀ (hl : List HL) (off len : Nat) (v : HL), off + len ≤ hl.length →
      (hlMemset hl off len v).length = hl.length) ∧
    (∀ (src dst : List HL) (n : Nat), n ≤ src.length → n ≤ dst.length →
      (hlMemcpy src dst n).length = dst.length) := by
  refine ⟨?_, ?_, ?_, ?_, ?_⟩
  · intro render seed
    exact scanC_length render (render.length + 1) 0 true none seed [] rfl
      (by omega) (by omega)
  · intro render
    simp [editorUpdateSyntaxNoFiletype]
  · intro hay q off h
    exact strstrIdx_le h
  · intro hl off len v h
    simp only [hlMemset, List.length_append, List.length_take,
      List.length_replicate, List.length_drop]
    omega
  · intro src dst n h1 h2
    simp only [hlMemcpy, List.length_append, List.length_take, List.length_drop]
    omega

theorem highlight_length_invariant_witness :
    ((editorUpdateSyntaxRow ['i', 'f', ' ', '1'] false).1).length = 4 ∧
    (0 : Nat) + 1 ≤ ([HL.normal, HL.normal, HL.normal] : List HL).length ∧
    (hlMemset [HL.normal, HL.normal, HL.normal] 0 1 HL.matched).length = 3 :=
  ⟨highlight_length_invariant.1 ['i', 'f', ' ', '1'] false, by decide,
   highlight_length_invariant.2.2.2.1 [HL.normal, HL.normal, HL.normal] 0 1 HL.matched
     (by decide)⟩

/-- C6: if the scan of row `N` (with its seeded state) now ends inside
an open block comment while row `N`'s stored flag said it did not — the
situation after a block-comment start token is inserted into row `N`
(which, per the claim, previously did not end inside an open block
comment, so nothing in the span below was open yet either) — then the
triggered re-highlight propagates, driven by the "recompute the next
row whenever a row's open-comment state changed" recursion, and covers
both arms of the claim.  End-of-file arm: if no following row contains
the closing token, every following row is reclassified entirely
`HL_MLCOMMENT`.  Closing-token arm: if row `M > N` is the first
following row containing the closing token (its first occurrence at
byte `pos`), every row strictly between `N` and `M` is reclassified
entirely `HL_MLCOMMENT`, and on row `M` every byte up to and including
the token — the span `[0, pos+2)` — is `HL_MLCOMMENT`. -/
theorem block_comment_propagates
    (rows : List Erow) (N fuel : Nat)
    (hcons : idxConsistent rows)
    (rowN : Erow) (hN : rows[N]? = some rowN)
    (hNopen : rowN.hl_open_comment = false)
    (hscan : (editorUpdateSyntaxRow rowN.render (rowSeed rows rowN)).2 = true)
    (hfuel : rows.length - N ≤ fuel) :
    ((∀ (j : Nat) (row : Erow), N < j → rows[j]? = some row →
        (∀ m, matchesAt row.render m mceTok = false) ∧ row.hl_open_comment = false) →
      ∀ (j : Nat) (row : Erow), N < j → rows[j]? = some row →
        (editorUpdateSyntaxAt fuel rows N)[j]?
          = some { row with
              hl := List.replicate row.render.length HL.mlcomment,
              hl_open_comment := true }) ∧
    (∀ (M pos : Nat) (rowM : Erow), N < M → rows[M]? = some rowM →
      matchesAt rowM.render pos mceTok = true →
      (∀ m, m < pos → matchesAt rowM.render m mceTok = false) →
      (∀ (j : Nat) (row : Erow), N < j → j < M → rows[j]? = some row →
        (∀ m, matchesAt row.render m mceTok = false) ∧ row.hl_open_comment = false) →
      (∀ (j : Nat) (row : Erow), N < j → j < M → rows[j]? = some row →
        (editorUpdateSyntaxAt fuel rows N)[j]?
          = some { row with
              hl := List.replicate row.render.length HL.mlcomment,
              hl_open_comment := true }) ∧
      ((editorUpdateSyntaxAt fuel rows N)[M]?).map (fun r => r.hl.take (pos + 2))
        = some (List.replicate (pos + 2) HL.mlcomment)) := by
  have hNlen : N < rows.length := getElem?_some_lt hN
  constructor
  · -- end-of-file arm
    intro hrest j row hNj hj
    have hjlen : j < rows.length := getElem?_some_lt hj
    cases fuel with
    | zero => omega
    | succ fuel =>
      have hidxN : rowN.idx = N := by
        rw [← getElem?_eq_of_lt hN hNlen]
        exact hcons N hNlen
      simp only [editorUpdateSyntaxAt, hN, hNopen, hscan, List.length_set]
      rw [show rowN.idx + 1 = N + 1 from by omega]
      by_cases hlt : N + 1 < rows.length
      · rw [if_pos ⟨by decide, hlt⟩]
        have hcons' := idxConsistent_set rowN
          { rowN with
            hl := (editorUpdateSyntaxRow rowN.render (rowSeed rows rowN)).1,
            hl_open_comment := true } hcons hN rfl
        refine editorUpdateSyntaxAt_propagate fuel _ (N + 1) hcons' (by omega) ?_ ?_
          (by simp only [List.length_set]; omega) j row (by omega) ?_
        · have hN1 : N + 1 - 1 = N := by omega
          rw [hN1, List.getElem?_set_self hNlen]
          rfl
        · intro m rowm hm hms
          rw [List.getElem?_set_ne (by omega)] at hms
          exact hrest m rowm (by omega) hms
        · rw [List.getElem?_set_ne (by omega)]
          exact hj
      · rw [if_neg (fun hc => hlt hc.2)]
        exact absurd hjlen (by omega)
  · -- closing-token arm
    intro M pos rowM hNM hM hmce hbefore hmid
    have hMlen : M < rows.length := getElem?_some_lt hM
    cases fuel with
    | zero =>
      constructor
      · intro j rowj hNj hjM hj
        omega
      · exact absurd hMlen (by omega)
    | succ fuel =>
      have hidxN : rowN.idx = N := by
        rw [← getElem?_eq_of_lt hN hNlen]
        exact hcons N hNlen
      simp only [editorUpdateSyntaxAt, hN, hNopen, hscan, List.length_set]
      rw [show rowN.idx + 1 = N + 1 from by omega]
      rw [if_pos ⟨by decide, by omega⟩]
      have hcons' := idxConsistent_set rowN
        { rowN with
          hl := (editorUpdateSyntaxRow rowN.render (rowSeed rows rowN)).1,
          hl_open_comment := true } hcons hN rfl
      have hIH := editorUpdateSyntaxAt_propagate_close fuel
        (rows.set N
          { rowN with
            hl := (editorUpdateSyntaxRow rowN.render (rowSeed rows rowN)).1,
            hl_open_comment := true })
        (N + 1) M pos rowM hcons' (by omega) (by omega)
        (by
          rw [show N + 1 - 1 = N from by omega, List.getElem?_set_self hNlen]
          rfl)
        (by
          intro m rowm hm hmM hms
          rw [List.getElem?_set_ne (by omega)] at hms
          exact hmid m rowm (by omega) hmM hms)
        (by
          rw [List.getElem?_set_ne (by omega)]
          exact hM)
        hmce hbefore
        (by simp only [List.length_set]; omega)
      constructor
      · intro j rowj hNj hjM hj
        refine hIH.1 j rowj (by omega) hjM ?_
        rw [List.getElem?_set_ne (by omega)]
        exact hj
      · exact hIH.2

theorem block_comment_propagates_witness :
    ((editorUpdateSyntaxAt 3
        [{ idx := 0, chars := ['/', '*'], render := ['/', '*'], hl := [],
           hl_open_comment := false },
         { idx := 1, chars := ['y'], render := ['y'], hl := [],
           hl_open_comment := false },
         { idx := 2, chars := ['a', '*', '/', 'b'], render := ['a', '*', '/', 'b'],
           hl := [], hl_open_comment := false }] 0)[1]?
      = some { idx := 1, chars := ['y'], render := ['y'], hl := [HL.mlcomment],
               hl_open_comment := true }) ∧
    ((editorUpdateSyntaxAt 3
        [{ idx := 0, chars := ['/', '*'], render := ['/', '*'], hl := [],
           hl_open_comment := false },
         { idx := 1, chars := ['y'], render := ['y'], hl := [],
           hl_open_comment := false },
         { idx := 2, chars := ['a', '*', '/', 'b'], render := ['a', '*', '/', 'b'],
           hl := [], hl_open_comment := false }] 0)[2]?).map
        (fun r => r.hl.take 3)
      = some [HL.mlcomment, HL.mlcomment, HL.mlcomment] := by
  have h := block_comment_propagates
    [{ idx := 0, chars := ['/', '*'], render := ['/', '*'], hl := [],
       hl_open_comment := false },
     { idx := 1, chars := ['y'], render := ['y'], hl := [],
       hl_open_comment := false },
     { idx := 2, chars := ['a', '*', '/', 'b'], render := ['a', '*', '/', 'b'],
       hl := [], hl_open_comment := false }] 0 3
    (by
      intro j hlen
      simp only [List.length_cons, List.length_nil] at hlen
      interval_cases j <;> rfl)
    { idx := 0, chars := ['/', '*'], render := ['/', '*'], hl := [],
      hl_open_comment := false }
    rfl rfl (by decide) (by decide)
  have hB := h.2 2 1
    { idx := 2, chars := ['a', '*', '/', 'b'], render := ['a', '*', '/', 'b'],
      hl := [], hl_open_comment := false }
    (by decide) rfl (by decide)
    (by
      intro m hm
      interval_cases m
      decide)
    (by
      intro j row hj hjM hrow
      have hj1 : j = 1 := by omega
      subst hj1
      simp only [List.getElem?_cons_succ, List.getElem?_cons_zero] at hrow
      obtain rfl := Option.some.inj hrow
      refine ⟨?_, rfl⟩
      intro m
      cases m with
      | zero => decide
      | succ m => simp [matchesAt, mceTok])
  exact ⟨hB.1 1
    { idx := 1, chars := ['y'], render := ['y'], hl := [], hl_open_comment := false }
    (by decide) (by decide) rfl, hB.2⟩

theorem editorFindLoop_fresh_forward_hit {rows : List Erow} {q : List Char}
    {row0 : Erow} {off : Nat} (hn : 0 < rows.length)
    (h0 : rows[0]? = some row0) (hhit : strstrIdx row0.render q = some off) :
    editorFindLoop rows q rows.length (-1) 1 = some (0, off) := by
  obtain ⟨m, hm⟩ : ∃ m, rows.length = m + 1 := ⟨rows.length - 1, by omega⟩
  have hw : findWrap rows.length (-1 + 1) = 0 := by
    unfold findWrap
    rw [if_neg (by decide), if_neg (by omega)]
    decide
  rw [hm]
  simp only [editorFindLoop, hw, Int.toNat_zero]
  simp only [h0, hhit]
  try rfl

/-- C7: in a fresh search session (`last_match = -1`, nothing saved)
with the cursor on the last row, a (non-Enter, non-Escape) keystroke
whose current query occurs in row 0's display text and in no other row
moves the cursor to row 0.  The loop's traversal order in this fresh
forward scan is exactly `[0, 1, …, numrows-1]` — it starts at
`last_match + direction = 0` and visits every row exactly once (the
visit list has no duplicates). -/
theorem search_wraps_to_row_zero
    (s : FindState) (q : List Char) (key : Int)
    (hfresh : s.last_match = -1) (hsaved : s.saved = none)
    (hk1 : key ≠ 13) (hk2 : key ≠ 27)
    (hn : 0 < s.rows.length) (_hcy : s.cy = s.rows.length - 1)
    (row0 : Erow) (off : Nat)
    (h0 : s.rows[0]? = some row0) (hhit : strstrIdx row0.render q = some off)
    (_honly : ∀ (j : Nat) (row : Erow), j ≠ 0 → s.rows[j]? = some row →
      strstrIdx row.render q = none) :
    (editorFindCallback s q key).cy = 0 ∧
    findVisits s.rows.length s.rows.length s.last_match 1
      = (List.range s.rows.length).map Int.ofNat ∧
    (findVisits s.rows.length s.rows.length s.last_match 1).Nodup := by
  have hvis : findVisits s.rows.length s.rows.length s.last_match 1
      = (List.range s.rows.length).map Int.ofNat := by
    rw [hfresh]
    have h := findVisits_forward s.rows.length s.rows.length 0 (by omega)
    rw [List.range_eq_range']
    simpa using h
  refine ⟨?_, hvis, ?_⟩
  · have hres := restoreSavedHl_none hsaved
    have hloop := editorFindLoop_fresh_forward_hit hn h0 hhit
    have hnot : ¬(key = 13 ∨ key = 27) := by
      rintro (h | h)
      · exact hk1 h
      · exact hk2 h
    have hlm : (if key = 1001 ∨ key = 1003 then (s.last_match, (1 : Int))
        else if key = 1000 ∨ key = 1002 then (s.last_match, (-1 : Int))
        else (-1, 1)).1 = -1 := by
      split
      · exact hfresh
      · split
        · exact hfresh
        · rfl
    simp only [editorFindCallback, hres, if_neg hnot]
    rw [hlm, if_pos rfl, hloop]
    simp only [h0]
  · rw [hvis]
    refine List.Nodup.map ?_ (List.nodup_range _)
    intro a b hab
    exact Int.ofNat.inj hab

theorem search_wraps_to_row_zero_witness :
    (editorFindCallback
        { rows := [{ idx := 0, chars := ['a', 'b'], render := ['a', 'b'],
                     hl := [HL.normal, HL.normal], hl_open_comment := false },
                   { idx := 1, chars := ['z'], render := ['z'],
                     hl := [HL.normal], hl_open_comment := false }],
          cx := 0, cy := 1, coloff := 0, rowoff := 0,
          last_match := -1, direction := 1, saved := none }
        ['b'] 98).cy = 0 := by
  have h := search_wraps_to_row_zero
    { rows := [{ idx := 0, chars := ['a', 'b'], render := ['a', 'b'],
                 hl := [HL.normal, HL.normal], hl_open_comment := false },
               { idx := 1, chars := ['z'], render := ['z'],
                 hl := [HL.normal], hl_open_comment := false }],
      cx := 0, cy := 1, coloff := 0, rowoff := 0,
      last_match := -1, direction := 1, saved := none }
    ['b'] 98 rfl rfl (by decide) (by decide) (by decide) rfl
    { idx := 0, chars := ['a', 'b'], render := ['a', 'b'],
      hl := [HL.normal, HL.normal], hl_open_comment := false }
    1 rfl (by decide)
    (by
      intro j row hj hrow
      have hjl : j < 2 := by simpa using getElem?_some_lt hrow
      have hj1 : j = 1 := by omega
      subst hj1
      simp only [List.getElem?_cons_succ, List.getElem?_cons_zero] at hrow
      obtain rfl := Option.some.inj hrow
      decide)
  exact h.1

theorem restoreSavedHl_render (s : FindState) (j : Nat) :
    ((restoreSavedHl s).rows[j]?).map Erow.render = (s.rows[j]?).map Erow.render := by
  rcases hsv : s.saved with _ | ⟨line, hlsaved⟩
  · rw [restoreSavedHl_none hsv]
  · simp only [restoreSavedHl, hsv]
    cases hr : s.rows[line]? with
    | none => rfl
    | some row =>
      simp only [hr]
      rcases eq_or_ne j line with rfl | hne
      · rw [List.getElem?_set_self (getElem?_some_lt hr), hr]
        rfl
      · rw [List.getElem?_set_ne (by omega)]

/-- C10: if no row's display text contains the query, a search-session
keystroke leaves the cursor, the viewport offsets, and every row
(content and, after the restoration of any previously saved highlight
row, highlight array) unchanged — only the session statics
(`last_match`, `direction`, the cleared save) may differ. -/
theorem find_no_match_leaves_state (s : FindState) (q : List Char) (key : Int)
    (hq : ∀ (j : Nat) (row : Erow), s.rows[j]? = some row →
      strstrIdx row.render q = none) :
    (editorFindCallback s q key).cx = s.cx ∧
    (editorFindCallback s q key).cy = s.cy ∧
    (editorFindCallback s q key).rowoff = s.rowoff ∧
    (editorFindCallback s q key).coloff = s.coloff ∧
    (editorFindCallback s q key).rows = (restoreSavedHl s).rows := by
  obtain ⟨hcx, hcy, hco, hro⟩ := restoreSavedHl_fields s
  have hq' : ∀ (j : Nat) (row : Erow), (restoreSavedHl s).rows[j]? = some row →
      strstrIdx row.render q = none := by
    intro j row hj
    have hrender := restoreSavedHl_render s j
    rw [hj] at hrender
    cases hr : s.rows[j]? with
    | none =>
      rw [hr] at hrender
      simp at hrender
    | some row' =>
      rw [hr] at hrender
      simp only [Option.map_some'] at hrender
      have := Option.some.inj hrender
      rw [this]
      exact hq j row' hr
  have hloop := editorFindLoop_none hq'
  simp only [editorFindCallback]
  split
  · exact ⟨hcx, hcy, hro, hco, rfl⟩
  · rw [hloop]
    exact ⟨hcx, hcy, hro, hco, rfl⟩

theorem find_no_match_leaves_state_witness :
    (editorFindCallback
        { rows := [{ idx := 0, chars := ['a'], render := ['a'],
                     hl := [HL.normal], hl_open_comment := false }],
          cx := 0, cy := 0, coloff := 0, rowoff := 0,
          last_match := -1, direction := 1, saved := none }
        ['z'] 122).cy = 0 := by
  have h := find_no_match_leaves_state
    { rows := [{ idx := 0, chars := ['a'], render := ['a'],
                 hl := [HL.normal], hl_open_comment := false }],
      cx := 0, cy := 0, coloff := 0, rowoff := 0,
      last_match := -1, direction := 1, saved := none }
    ['z'] 122
    (by
      intro j row hrow
      have hjl : j < 1 := by simpa using getElem?_some_lt hrow
      have hj0 : j = 0 := by omega
      subst hj0
      simp only [List.getElem?_cons_zero] at hrow
      obtain rfl := Option.some.inj hrow
      decide)
  exact h.2.1
